import Mathlib

/-!
Verification of the Advent-of-Code-2015 repository core: the Day 22
combat state-search engine (`day_22.py`), the generic solver contract
(`solver.py`), and the solver factory (`factory.py`).

All definitions are shallow embeddings translated from the Python source.
Hit points, mana and damage are Python ints, embedded as `Int`; turn
counters, cumulative mana spent and effect timers are non-negative and
embedded as `Nat` (effect timers use truncated subtraction, matching the
source's `x - 1 if x else 0`).
-/

namespace AoC2015

/-- `Player = namedtuple('Player', 'hit_pts mana')` from day_22.py. -/
structure Player where
  hitPts : Int
  mana : Int
deriving DecidableEq, Repr

/-- `Boss = namedtuple('Boss', 'hit_pts damage')` from day_22.py. -/
structure Boss where
  hitPts : Int
  damage : Int
deriving DecidableEq, Repr

/-- `Effects = namedtuple('Effects', 'shield poison recharge')`: turns
remaining for each timed effect (0 = inactive). -/
structure Effects where
  shield : Nat
  poison : Nat
  recharge : Nat
deriving DecidableEq, Repr

/-- `Move = namedtuple('Move', 'turn mana_used player boss effects')`:
a search node holding the fight state at the start of a turn. -/
structure Move where
  turn : Nat
  manaUsed : Nat
  player : Player
  boss : Boss
  effects : Effects
deriving DecidableEq, Repr

/-- `Spell = namedtuple('Spell', 'cost effect turns')`.  `turns` is `None`
in the source for the two instant spells; it is only ever read for the
three timed effects, so we store 0 there. -/
structure Spell where
  cost : Nat
  effect : Int
  turns : Nat
deriving DecidableEq, Repr

/-- `self._magic_missile = Spell(cost=53, effect=4, turns=None)`. -/
def magicMissile : Spell := ⟨53, 4, 0⟩

/-- `self._drain = Spell(cost=73, effect=2, turns=None)`. -/
def drainSpell : Spell := ⟨73, 2, 0⟩

/-- `self._shield = Spell(cost=113, effect=7, turns=6)`. -/
def shieldSpell : Spell := ⟨113, 7, 6⟩

/-- `self._poison = Spell(cost=173, effect=3, turns=6)`. -/
def poisonSpell : Spell := ⟨173, 3, 6⟩

/-- `self._recharge = Spell(cost=229, effect=101, turns=5)`. -/
def rechargeSpell : Spell := ⟨229, 101, 5⟩

/-- `Solver._cast_magic_missile`: pay 53 mana, deal 4 damage. -/
def castMagicMissile (p : Player) (b : Boss) : Player × Boss :=
  (⟨p.hitPts, p.mana - (magicMissile.cost : Int)⟩,
   ⟨b.hitPts - magicMissile.effect, b.damage⟩)

/-- `Solver._cast_drain`: pay 73 mana, deal 2 damage, heal 2 hit points. -/
def castDrain (p : Player) (b : Boss) : Player × Boss :=
  (⟨p.hitPts + drainSpell.effect, p.mana - (drainSpell.cost : Int)⟩,
   ⟨b.hitPts - drainSpell.effect, b.damage⟩)

/-- `Solver._cast_shield`: pay 113 mana, start a 6-turn shield; the boss's
effective damage is set to its raw damage minus 7, floored at 1. -/
def castShield (raw : Int) (p : Player) (b : Boss) (e : Effects) :
    Player × Boss × Effects :=
  (⟨p.hitPts, p.mana - (shieldSpell.cost : Int)⟩,
   ⟨b.hitPts, if raw - shieldSpell.effect < 1 then 1 else raw - shieldSpell.effect⟩,
   ⟨shieldSpell.turns, e.poison, e.recharge⟩)

/-- `Solver._cast_poison`: pay 173 mana, start a 6-turn poison. -/
def castPoison (p : Player) (e : Effects) : Player × Effects :=
  (⟨p.hitPts, p.mana - (poisonSpell.cost : Int)⟩,
   ⟨e.shield, poisonSpell.turns, e.recharge⟩)

/-- `Solver._cast_recharge`: pay 229 mana, start a 5-turn recharge. -/
def castRecharge (p : Player) (e : Effects) : Player × Effects :=
  (⟨p.hitPts, p.mana - (rechargeSpell.cost : Int)⟩,
   ⟨e.shield, e.poison, rechargeSpell.turns⟩)

/-- `Solver._apply_spells`: start-of-turn resolution.  In hard mode the
player loses 1 hit point on even (player) turns; an inactive shield resets
the boss's effective damage to its raw damage; active poison deals 3
damage; active recharge grants 101 mana; every timer is decremented
(`x - 1 if x else 0`, i.e. truncated subtraction). -/
def applySpells (raw : Int) (hard : Bool) (m : Move) : Player × Boss × Effects :=
  (⟨(if hard ∧ m.turn % 2 = 0 then m.player.hitPts - 1 else m.player.hitPts),
    (if m.effects.recharge ≠ 0 then m.player.mana + rechargeSpell.effect else m.player.mana)⟩,
   ⟨(if m.effects.poison ≠ 0 then m.boss.hitPts - poisonSpell.effect else m.boss.hitPts),
    (if m.effects.shield = 0 then raw else m.boss.damage)⟩,
   ⟨m.effects.shield - 1, m.effects.poison - 1, m.effects.recharge - 1⟩)

/-- The five castable spells of the five `_cast_*` methods, used to name
the branches of `_add_player_moves` and the choices of a play sequence. -/
inductive SpellChoice where
  | missile | drain | shield | poison | recharge
deriving DecidableEq, Repr

/-- Mana cost of each spell choice. -/
def spellCost : SpellChoice → Nat
  | .missile => magicMissile.cost
  | .drain => drainSpell.cost
  | .shield => shieldSpell.cost
  | .poison => poisonSpell.cost
  | .recharge => rechargeSpell.cost

/-- The child `Move` that `_add_player_moves` builds for each spell: turn
advances, the spell's cost is added to the cumulative mana, and the cast's
results replace the player/boss/effects snapshots (instant spells keep the
incoming effects; poison/recharge keep the incoming boss). -/
def playerChild (raw : Int) (m : Move) (p : Player) (b : Boss) (e : Effects) :
    SpellChoice → Move
  | .missile =>
      ⟨m.turn + 1, m.manaUsed + magicMissile.cost,
       (castMagicMissile p b).1, (castMagicMissile p b).2, e⟩
  | .drain =>
      ⟨m.turn + 1, m.manaUsed + drainSpell.cost,
       (castDrain p b).1, (castDrain p b).2, e⟩
  | .shield =>
      ⟨m.turn + 1, m.manaUsed + shieldSpell.cost,
       (castShield raw p b e).1, (castShield raw p b e).2.1, (castShield raw p b e).2.2⟩
  | .poison =>
      ⟨m.turn + 1, m.manaUsed + poisonSpell.cost,
       (castPoison p e).1, b, (castPoison p e).2⟩
  | .recharge =>
      ⟨m.turn + 1, m.manaUsed + rechargeSpell.cost,
       (castRecharge p e).1, b, (castRecharge p e).2⟩

/-- The guard `_add_player_moves` places on each spell: affordable by
mana, and (for the timed effects) not already active. -/
def legalSpell (p : Player) (e : Effects) : SpellChoice → Prop
  | .missile => (magicMissile.cost : Int) ≤ p.mana
  | .drain => (drainSpell.cost : Int) ≤ p.mana
  | .shield => e.shield = 0 ∧ (shieldSpell.cost : Int) ≤ p.mana
  | .poison => e.poison = 0 ∧ (poisonSpell.cost : Int) ≤ p.mana
  | .recharge => e.recharge = 0 ∧ (rechargeSpell.cost : Int) ≤ p.mana

instance (p : Player) (e : Effects) : (s : SpellChoice) → Decidable (legalSpell p e s)
  | .missile => inferInstanceAs (Decidable (_ ≤ _))
  | .drain => inferInstanceAs (Decidable (_ ≤ _))
  | .shield => inferInstanceAs (Decidable (_ ∧ _))
  | .poison => inferInstanceAs (Decidable (_ ∧ _))
  | .recharge => inferInstanceAs (Decidable (_ ∧ _))

/-- `heapq.heappush(moves, new_move)` guarded by `if new_move not in moves`:
the frontier is represented by the list of its members. -/
def push (x : Move) (l : List Move) : List Move :=
  if x ∈ l then l else x :: l

/-- `Solver._add_player_moves`: branch on every affordable legal spell, in
the fixed order missile, drain, shield, poison, recharge; return early
with no further children if the player cannot afford magic missile, or
after a missile or drain that leaves the boss below 1 hit point. -/
def addPlayerMoves (raw : Int) (m : Move) (moves : List Move)
    (p : Player) (b : Boss) (e : Effects) : List Move :=
  if p.mana < (magicMissile.cost : Int) then moves
  else
    let l1 := if (magicMissile.cost : Int) ≤ p.mana then
        push (playerChild raw m p b e .missile) moves else moves
    if (magicMissile.cost : Int) ≤ p.mana ∧ (castMagicMissile p b).2.hitPts < 1 then l1
    else
      let l2 := if (drainSpell.cost : Int) ≤ p.mana then
          push (playerChild raw m p b e .drain) l1 else l1
      if (drainSpell.cost : Int) ≤ p.mana ∧ (castDrain p b).2.hitPts < 1 then l2
      else
        let l3 := if e.shield = 0 ∧ (shieldSpell.cost : Int) ≤ p.mana then
            push (playerChild raw m p b e .shield) l2 else l2
        let l4 := if e.poison = 0 ∧ (poisonSpell.cost : Int) ≤ p.mana then
            push (playerChild raw m p b e .poison) l3 else l3
        if e.recharge = 0 ∧ (rechargeSpell.cost : Int) ≤ p.mana then
            push (playerChild raw m p b e .recharge) l4 else l4

/-- The single child `Solver._add_boss_move` builds: the boss attacks for
its current effective damage. -/
def bossChild (m : Move) (p : Player) (b : Boss) (e : Effects) : Move :=
  ⟨m.turn + 1, m.manaUsed, ⟨p.hitPts - b.damage, p.mana⟩, b, e⟩

/-- `Solver._add_boss_move`: push the boss's attack unless the player is
already down. -/
def addBossMove (m : Move) (moves : List Move)
    (p : Player) (b : Boss) (e : Effects) : List Move :=
  if p.hitPts < 1 then moves else push (bossChild m p b e) moves

/-- The total order on `Move` search nodes: Python compares namedtuples
lexicographically field by field, nested tuples included, so the key is
(turn, mana_used, player.hit_pts, player.mana, boss.hit_pts, boss.damage,
effects.shield, effects.poison, effects.recharge). -/
def moveLt (a b : Move) : Prop :=
  a.turn < b.turn ∨ (a.turn = b.turn ∧
    (a.manaUsed < b.manaUsed ∨ (a.manaUsed = b.manaUsed ∧
      (a.player.hitPts < b.player.hitPts ∨ (a.player.hitPts = b.player.hitPts ∧
        (a.player.mana < b.player.mana ∨ (a.player.mana = b.player.mana ∧
          (a.boss.hitPts < b.boss.hitPts ∨ (a.boss.hitPts = b.boss.hitPts ∧
            (a.boss.damage < b.boss.damage ∨ (a.boss.damage = b.boss.damage ∧
              (a.effects.shield < b.effects.shield ∨ (a.effects.shield = b.effects.shield ∧
                (a.effects.poison < b.effects.poison ∨ (a.effects.poison = b.effects.poison ∧
                  a.effects.recharge < b.effects.recharge)))))))))))))))

instance : DecidableRel moveLt := by
  intro a b
  unfold moveLt
  infer_instance

/-- `heapq.heappop`: the least node of a non-empty frontier. -/
def minMove (x : Move) (xs : List Move) : Move :=
  xs.foldl (fun best y => if moveLt y best then y else best) x

/-- `sys.maxsize` on a 64-bit CPython build. -/
def maxsize : Nat := 2 ^ 63 - 1

/-- One iteration of the `while moves:` loop of `Solver._get_min_mana`,
acting on the popped move `m`, the rest of the frontier and the best win
so far; returns the next frontier and best value. -/
def stepFrontier (raw : Int) (hard : Bool) (m : Move) (rest : List Move)
    (best : Nat) : List Move × Nat :=
  if m.player.hitPts < 1 ∨ best < m.manaUsed then (rest, best)
  else if m.boss.hitPts < 1 then (rest, min best m.manaUsed)
  else
    if (applySpells raw hard m).1.hitPts < 1 then (rest, best)
    else if (applySpells raw hard m).2.1.hitPts < 1 then (rest, min best m.manaUsed)
    else if m.turn % 2 = 1 then
      (addBossMove m rest (applySpells raw hard m).1 (applySpells raw hard m).2.1
        (applySpells raw hard m).2.2, best)
    else
      (addPlayerMoves raw m rest (applySpells raw hard m).1 (applySpells raw hard m).2.1
        (applySpells raw hard m).2.2, best)

/-- The `while moves:` loop of `Solver._get_min_mana`, with explicit fuel:
pop the least move, process it, recurse; `none` means the fuel ran out
before the frontier was exhausted. -/
def searchLoop (raw : Int) (hard : Bool) : Nat → List Move → Nat → Option Nat
  | _, [], best => some best
  | 0, _ :: _, _ => none
  | fuel + 1, x :: xs, best =>
      searchLoop raw hard fuel
        (stepFrontier raw hard (minMove x xs) ((x :: xs).erase (minMove x xs)) best).1
        (stepFrontier raw hard (minMove x xs) ((x :: xs).erase (minMove x xs)) best).2

/-- `Solver._get_min_mana`: best-known win starts at `sys.maxsize` and the
frontier at the initial `Move(0, 0, player, boss, Effects(0, 0, 0))`.  The
raw boss damage the instance stores is the damage of the boss it parsed,
i.e. `boss.damage`. -/
def getMinMana (player : Player) (boss : Boss) (hard : Bool) (fuel : Nat) :
    Option Nat :=
  searchLoop boss.damage hard fuel [⟨0, 0, player, boss, ⟨0, 0, 0⟩⟩] maxsize

/-- Modelled from the spec: the reference semantics of one legal play
sequence ("branch over every legal spell ... as a distinct child state"),
used to state what `_get_min_mana` computes the minimum of.  It replays
the exact turn resolution of the loop — the same start-of-turn checks,
`_apply_spells`, boss attack and per-spell casts — along the single path
selected by the list of spell choices, and returns the cumulative mana
spent at the moment the boss's hit points drop below 1, or `none` if the
player dies, an illegal spell is chosen, or the list runs out first. -/
def playOut (raw : Int) (hard : Bool) : Move → List SpellChoice → Option Nat
  | m, spells =>
    if m.player.hitPts < 1 then none
    else if m.boss.hitPts < 1 then some m.manaUsed
    else if (applySpells raw hard m).1.hitPts < 1 then none
    else if (applySpells raw hard m).2.1.hitPts < 1 then some m.manaUsed
    else if _h : m.turn % 2 = 1 then
      playOut raw hard
        (bossChild m (applySpells raw hard m).1 (applySpells raw hard m).2.1
          (applySpells raw hard m).2.2) spells
    else
      match spells with
      | [] => none
      | s :: rest =>
        if legalSpell (applySpells raw hard m).1 (applySpells raw hard m).2.2 s then
          playOut raw hard
            (playerChild raw m (applySpells raw hard m).1 (applySpells raw hard m).2.1
              (applySpells raw hard m).2.2 s) rest
        else none
termination_by m spells => (spells.length, m.turn % 2)
decreasing_by
  · apply Prod.Lex.right
    simp [bossChild]
    omega
  · apply Prod.Lex.left
    simp

/-- The set of cumulative-mana totals of winning play sequences from a
given state. -/
def winsFrom (raw : Int) (hard : Bool) (m : Move) : Set Nat :=
  {c | ∃ s, playOut raw hard m s = some c}

/-- The states the search can generate from a root state: reflexive
closure of the child-generating steps of the `_get_min_mana` loop (the
guards are the loop's survival checks; pruning and dedup only restrict
which of these states get expanded). -/
inductive Reach (raw : Int) (hard : Bool) : Move → Move → Prop where
  | refl (m : Move) : Reach raw hard m m
  | playerStep {m x : Move} (s : SpellChoice) :
      Reach raw hard m x →
      ¬ x.player.hitPts < 1 → ¬ x.boss.hitPts < 1 →
      ¬ (applySpells raw hard x).1.hitPts < 1 →
      ¬ (applySpells raw hard x).2.1.hitPts < 1 →
      ¬ x.turn % 2 = 1 →
      legalSpell (applySpells raw hard x).1 (applySpells raw hard x).2.2 s →
      Reach raw hard m (playerChild raw x (applySpells raw hard x).1
        (applySpells raw hard x).2.1 (applySpells raw hard x).2.2 s)
  | bossStep {m x : Move} :
      Reach raw hard m x →
      ¬ x.player.hitPts < 1 → ¬ x.boss.hitPts < 1 →
      ¬ (applySpells raw hard x).1.hitPts < 1 →
      ¬ (applySpells raw hard x).2.1.hitPts < 1 →
      x.turn % 2 = 1 →
      Reach raw hard m (bossChild x (applySpells raw hard x).1
        (applySpells raw hard x).2.1 (applySpells raw hard x).2.2)

/-- The same state with the player's hit points replaced, used to relate
hard-mode and normal-mode runs. -/
def withHp (m : Move) (hp : Int) : Move :=
  ⟨m.turn, m.manaUsed, ⟨hp, m.player.mana⟩, m.boss, m.effects⟩

/-- The 25 solver modules `factory.py` imports, one per puzzle day, in
the order of the `aoc_solvers` tuple (day_25 is referenced by the factory
alongside the others). -/
inductive DayModule where
  | d01 | d02 | d03 | d04 | d05 | d06 | d07 | d08 | d09 | d10
  | d11 | d12 | d13 | d14 | d15 | d16 | d17 | d18 | d19 | d20
  | d21 | d22 | d23 | d24 | d25
deriving DecidableEq, Repr

/-- The `aoc_solvers` tuple of `factory.get_solver`. -/
def aocSolvers : List DayModule :=
  [.d01, .d02, .d03, .d04, .d05, .d06, .d07, .d08, .d09, .d10,
   .d11, .d12, .d13, .d14, .d15, .d16, .d17, .d18, .d19, .d20,
   .d21, .d22, .d23, .d24, .d25]

/-- A constructed solver: the module whose `Solver` class was applied,
and the file name it was constructed with (`aoc_solver(file_name)`). -/
structure SolverInstance where
  module : DayModule
  fileName : Option String
deriving DecidableEq, Repr

/-- `factory.get_solver`: if `0 < day <= len(aoc_solvers)` construct the
solver of `aoc_solvers[day - 1]`, else raise
`ValueError` with message `No solver exists for puzzle` plus the day. -/
def getSolver (day : Int) (fileName : Option String) :
    Except String SolverInstance :=
  if h : 0 < day ∧ day ≤ 25 then
    .ok ⟨aocSolvers.get ⟨(day - 1).toNat, by
      have := h.1
      have := h.2
      simp only [aocSolvers, List.length]
      omega⟩, fileName⟩
  else
    .error ("No solver exists for puzzle " ++ toString day)

/-- Result of `Solver._load_puzzle_file`: either the right-stripped file
contents are stored as the puzzle input, or the process exits.  Modelled
from the source together with CPython semantics of `sys.exit(arg)` for a
non-integer argument: the argument is printed to standard error and the
exit status is 1. -/
inductive LoadOutcome where
  | loaded (input : String)
  | fatalExit (stderrLines : List String) (exitCode : Nat)
deriving DecidableEq, Repr

/-- The context line `ERROR: Failed to read the puzzle input from file
"{name}"` that `_load_puzzle_file` formats with the file name. -/
def loadErrorContext (name : String) : String :=
  "ERROR: Failed to read the puzzle input from file \"" ++ name ++ "\""

/-- `Solver._load_puzzle_file`, with the operating system answer to the
`open`/`read` of the file passed in as `readResult` (`Except.error e`
models an `IOError` whose text is `e`): on success the input is stored
right-stripped; on failure the method calls `sys.exit` on the two
diagnostic lines joined by a newline. -/
def loadPuzzleFile (fileName : String) (readResult : Except String String) :
    LoadOutcome :=
  match readResult with
  | .ok contents => .loaded contents.trimRight
  | .error e => .fatalExit [loadErrorContext fileName, e] 1

/-- Helper for `digitRuns`: scan characters, carrying the value of the
digit run in progress. -/
def digitRunsAux : List Char → Option Nat → List Nat
  | [], none => []
  | [], some n => [n]
  | c :: cs, acc =>
      if c.isDigit then
        digitRunsAux cs (some ((acc.getD 0) * 10 + (c.toNat - 48)))
      else
        match acc with
        | none => digitRunsAux cs none
        | some n => n :: digitRunsAux cs none

/-- The numbers matched by `re.findall` with pattern `\d+`: the maximal
runs of decimal digits, in order. -/
def digitRuns (s : String) : List Nat :=
  digitRunsAux s.data none

/-- The mutable per-instance state of the Day 22 solver that
`get_puzzle_solution` reads or writes: `_puzzle_input` (from the base
class) and `_boss_raw_damage`. -/
structure Day22State where
  puzzleInput : Option String
  bossRawDamage : Option Int
deriving DecidableEq, Repr

/-- `Solver._get_boss` of day_22.py: parse the numbers out of the stored
input, store the second one as `_boss_raw_damage`, and return the boss.
`none` models the exception raised when the input is absent or holds
fewer than two numbers (in which case `_boss_raw_damage` is not written,
since the failing index happens on the right-hand side). -/
def getBoss (st : Day22State) : Option (Boss × Day22State) :=
  match st.puzzleInput with
  | none => none
  | some input =>
      match digitRuns input.trim with
      | hp :: dmg :: _ =>
          some (⟨(hp : Int), (dmg : Int)⟩, ⟨st.puzzleInput, some (dmg : Int)⟩)
      | _ => none

/-- `Solver._solve_puzzle_parts` of day_22.py: a fresh player with 50 hit
points and 500 mana, the boss parsed from the input; hard mode is solved
first, and the pair is returned as (normal, hard).  The searches run with
the given fuel; `none` models a search that has not terminated within it. -/
def solvePuzzleParts (st : Day22State) (fuel : Nat) :
    Option ((Nat × Nat) × Day22State) :=
  match getBoss st with
  | none => none
  | some (boss, st2) =>
      match getMinMana ⟨50, 500⟩ boss true fuel,
          getMinMana ⟨50, 500⟩ boss false fuel with
      | some hard, some normal => some ((normal, hard), st2)
      | _, _ => none

/-- The `_solved_output` template of the Day 22 solver, applied to the two
answers the way `get_puzzle_solution` formats them. -/
def day22Format (answer1 answer2 : Nat) : String :=
  "The least amount of mana needed to win normally is " ++ toString answer1 ++
    ".\nThe least amount of mana needed to win on hard mode is " ++ toString answer2

/-- `Solver.get_puzzle_solution(alt_input)` of the Day 22 solver with a
non-`None` injected input: store the input, solve both parts, format.
Returns the output (or `none` when parsing raises or the search fuel runs
out) together with the instance state after the call. -/
def getPuzzleSolution (st : Day22State) (altInput : String) (fuel : Nat) :
    Option String × Day22State :=
  match solvePuzzleParts ⟨some altInput, st.bossRawDamage⟩ fuel with
  | none => (none, ⟨some altInput, st.bossRawDamage⟩)
  | some ((a1, a2), st2) => (some (day22Format a1 a2), st2)

theorem playOut_dead {raw : Int} {hard : Bool} {m : Move} {s : List SpellChoice}
    (h1 : m.player.hitPts < 1) : playOut raw hard m s = none := by
  rw [playOut.eq_def]
  simp [h1]

theorem playOut_winNow {raw : Int} {hard : Bool} {m : Move} {s : List SpellChoice}
    (h1 : ¬ m.player.hitPts < 1) (h2 : m.boss.hitPts < 1) :
    playOut raw hard m s = some m.manaUsed := by
  rw [playOut.eq_def]
  simp [h1, h2]

theorem playOut_postDead {raw : Int} {hard : Bool} {m : Move} {s : List SpellChoice}
    (h1 : ¬ m.player.hitPts < 1) (h2 : ¬ m.boss.hitPts < 1)
    (h3 : (applySpells raw hard m).1.hitPts < 1) : playOut raw hard m s = none := by
  rw [playOut.eq_def]
  simp [h1, h2, h3]

theorem playOut_postWin {raw : Int} {hard : Bool} {m : Move} {s : List SpellChoice}
    (h1 : ¬ m.player.hitPts < 1) (h2 : ¬ m.boss.hitPts < 1)
    (h3 : ¬ (applySpells raw hard m).1.hitPts < 1)
    (h4 : (applySpells raw hard m).2.1.hitPts < 1) :
    playOut raw hard m s = some m.manaUsed := by
  rw [playOut.eq_def]
  simp [h1, h2, h3, h4]

theorem playOut_bossTurn {raw : Int} {hard : Bool} {m : Move} {s : List SpellChoice}
    (h1 : ¬ m.player.hitPts < 1) (h2 : ¬ m.boss.hitPts < 1)
    (h3 : ¬ (applySpells raw hard m).1.hitPts < 1)
    (h4 : ¬ (applySpells raw hard m).2.1.hitPts < 1)
    (h5 : m.turn % 2 = 1) :
    playOut raw hard m s =
      playOut raw hard
        (bossChild m (applySpells raw hard m).1 (applySpells raw hard m).2.1
          (applySpells raw hard m).2.2) s := by
  conv => lhs; rw [playOut.eq_def]
  simp [h1, h2, h3, h4, h5]

theorem playOut_playerNil {raw : Int} {hard : Bool} {m : Move}
    (h1 : ¬ m.player.hitPts < 1) (h2 : ¬ m.boss.hitPts < 1)
    (h3 : ¬ (applySpells raw hard m).1.hitPts < 1)
    (h4 : ¬ (applySpells raw hard m).2.1.hitPts < 1)
    (h5 : ¬ m.turn % 2 = 1) :
    playOut raw hard m [] = none := by
  rw [playOut.eq_def]
  simp [h1, h2, h3, h4, h5]

theorem playOut_playerCons {raw : Int} {hard : Bool} {m : Move} {s : SpellChoice}
    {rest : List SpellChoice}
    (h1 : ¬ m.player.hitPts < 1) (h2 : ¬ m.boss.hitPts < 1)
    (h3 : ¬ (applySpells raw hard m).1.hitPts < 1)
    (h4 : ¬ (applySpells raw hard m).2.1.hitPts < 1)
    (h5 : ¬ m.turn % 2 = 1) :
    playOut raw hard m (s :: rest) =
      if legalSpell (applySpells raw hard m).1 (applySpells raw hard m).2.2 s then
        playOut raw hard
          (playerChild raw m (applySpells raw hard m).1 (applySpells raw hard m).2.1
            (applySpells raw hard m).2.2 s) rest
      else none := by
  conv => lhs; rw [playOut.eq_def]
  simp [h1, h2, h3, h4, h5]

theorem mem_push {y x : Move} {l : List Move} : y ∈ push x l ↔ y = x ∨ y ∈ l := by
  unfold push
  by_cases h : x ∈ l
  · simp only [if_pos h]
    constructor
    · intro hy
      exact Or.inr hy
    · rintro (rfl | hy)
      · exact h
      · exact hy
  · simp [if_neg h]

theorem self_mem_push (x : Move) (l : List Move) : x ∈ push x l :=
  mem_push.mpr (Or.inl rfl)

theorem mem_push_of_mem {y : Move} {l : List Move} (x : Move) (h : y ∈ l) :
    y ∈ push x l :=
  mem_push.mpr (Or.inr h)

theorem minMove_mem (x : Move) (xs : List Move) : minMove x xs ∈ x :: xs := by
  unfold minMove
  induction xs generalizing x with
  | nil => simp
  | cons y ys ih =>
      rw [List.foldl_cons]
      by_cases hlt : moveLt y x
      · rw [if_pos hlt]
        have h := ih y
        simp only [List.mem_cons] at h ⊢
        tauto
      · rw [if_neg hlt]
        have h := ih x
        simp only [List.mem_cons] at h ⊢
        tauto

theorem playerChild_manaUsed (raw : Int) (m : Move) (p : Player) (b : Boss)
    (e : Effects) (s : SpellChoice) :
    (playerChild raw m p b e s).manaUsed = m.manaUsed + spellCost s := by
  cases s <;> rfl

theorem playerChild_turn (raw : Int) (m : Move) (p : Player) (b : Boss)
    (e : Effects) (s : SpellChoice) :
    (playerChild raw m p b e s).turn = m.turn + 1 := by
  cases s <;> rfl

theorem spellCost_ge (s : SpellChoice) : magicMissile.cost ≤ spellCost s := by
  cases s <;> decide

/-- Mana spent only grows along a play: a win reached from `m` costs at
least the mana already spent at `m`. -/
theorem manaUsed_le_of_playOut {raw : Int} {hard : Bool} :
    ∀ {m : Move} {s : List SpellChoice} {c : Nat},
      playOut raw hard m s = some c → m.manaUsed ≤ c := by
  intro m s
  induction m, s using playOut.induct raw hard with
  | case1 m spells h1 =>
      intro c hc
      rw [playOut_dead h1] at hc
      exact absurd hc (by simp)
  | case2 m spells h1 h2 =>
      intro c hc
      rw [playOut_winNow h1 h2] at hc
      simp at hc
      omega
  | case3 m spells h1 h2 h3 =>
      intro c hc
      rw [playOut_postDead h1 h2 h3] at hc
      exact absurd hc (by simp)
  | case4 m spells h1 h2 h3 h4 =>
      intro c hc
      rw [playOut_postWin h1 h2 h3 h4] at hc
      simp at hc
      omega
  | case5 m spells h1 h2 h3 h4 h5 ih =>
      intro c hc
      rw [playOut_bossTurn h1 h2 h3 h4 h5] at hc
      exact ih hc
  | case6 m h1 h2 h3 h4 h5 =>
      intro c hc
      rw [playOut_playerNil h1 h2 h3 h4 h5] at hc
      exact absurd hc (by simp)
  | case7 m h1 h2 h3 h4 h5 s rest hleg ih =>
      intro c hc
      rw [playOut_playerCons h1 h2 h3 h4 h5, if_pos hleg] at hc
      have := ih hc
      rw [playerChild_manaUsed] at this
      omega
  | case8 m h1 h2 h3 h4 h5 s rest hleg =>
      intro c hc
      rw [playOut_playerCons h1 h2 h3 h4 h5, if_neg hleg] at hc
      exact absurd hc (by simp)

/-- A winning play from a reachable state extends to a winning play from
the root with the same total cost. -/
theorem winsFrom_subset_of_reach {raw : Int} {hard : Bool} {m x : Move}
    (h : Reach raw hard m x) : winsFrom raw hard x ⊆ winsFrom raw hard m := by
  induction h with
  | refl => exact subset_rfl
  | playerStep s hr h1 h2 h3 h4 h5 hleg ih =>
      intro c hc
      obtain ⟨ss, hss⟩ := hc
      exact ih ⟨s :: ss, by rw [playOut_playerCons h1 h2 h3 h4 h5, if_pos hleg]; exact hss⟩
  | bossStep hr h1 h2 h3 h4 h5 ih =>
      intro c hc
      obtain ⟨ss, hss⟩ := hc
      exact ih ⟨ss, by rw [playOut_bossTurn h1 h2 h3 h4 h5]; exact hss⟩

theorem winsFrom_dead {raw : Int} {hard : Bool} {m : Move}
    (h1 : m.player.hitPts < 1) : winsFrom raw hard m = ∅ := by
  ext c
  simp only [winsFrom, Set.mem_setOf_eq, Set.mem_empty_iff_false, iff_false, not_exists]
  intro s hs
  rw [playOut_dead h1] at hs
  exact absurd hs (by simp)

theorem winsFrom_winNow {raw : Int} {hard : Bool} {m : Move}
    (h1 : ¬ m.player.hitPts < 1) (h2 : m.boss.hitPts < 1) :
    winsFrom raw hard m = {m.manaUsed} := by
  ext c
  simp only [winsFrom, Set.mem_setOf_eq, Set.mem_singleton_iff]
  constructor
  · rintro ⟨s, hs⟩
    rw [playOut_winNow h1 h2] at hs
    simp at hs
    omega
  · rintro rfl
    exact ⟨[], playOut_winNow h1 h2⟩

theorem winsFrom_postDead {raw : Int} {hard : Bool} {m : Move}
    (h1 : ¬ m.player.hitPts < 1) (h2 : ¬ m.boss.hitPts < 1)
    (h3 : (applySpells raw hard m).1.hitPts < 1) : winsFrom raw hard m = ∅ := by
  ext c
  simp only [winsFrom, Set.mem_setOf_eq, Set.mem_empty_iff_false, iff_false, not_exists]
  intro s hs
  rw [playOut_postDead h1 h2 h3] at hs
  exact absurd hs (by simp)

theorem winsFrom_postWin {raw : Int} {hard : Bool} {m : Move}
    (h1 : ¬ m.player.hitPts < 1) (h2 : ¬ m.boss.hitPts < 1)
    (h3 : ¬ (applySpells raw hard m).1.hitPts < 1)
    (h4 : (applySpells raw hard m).2.1.hitPts < 1) :
    winsFrom raw hard m = {m.manaUsed} := by
  ext c
  simp only [winsFrom, Set.mem_setOf_eq, Set.mem_singleton_iff]
  constructor
  · rintro ⟨s, hs⟩
    rw [playOut_postWin h1 h2 h3 h4] at hs
    simp at hs
    omega
  · rintro rfl
    exact ⟨[], playOut_postWin h1 h2 h3 h4⟩

theorem winsFrom_boss {raw : Int} {hard : Bool} {m : Move}
    (h1 : ¬ m.player.hitPts < 1) (h2 : ¬ m.boss.hitPts < 1)
    (h3 : ¬ (applySpells raw hard m).1.hitPts < 1)
    (h4 : ¬ (applySpells raw hard m).2.1.hitPts < 1)
    (h5 : m.turn % 2 = 1) :
    winsFrom raw hard m =
      winsFrom raw hard (bossChild m (applySpells raw hard m).1
        (applySpells raw hard m).2.1 (applySpells raw hard m).2.2) := by
  ext c
  simp only [winsFrom, Set.mem_setOf_eq]
  constructor
  · rintro ⟨s, hs⟩
    rw [playOut_bossTurn h1 h2 h3 h4 h5] at hs
    exact ⟨s, hs⟩
  · rintro ⟨s, hs⟩
    exact ⟨s, by rw [playOut_bossTurn h1 h2 h3 h4 h5]; exact hs⟩

theorem mem_winsFrom_player {raw : Int} {hard : Bool} {m : Move} {c : Nat}
    (h1 : ¬ m.player.hitPts < 1) (h2 : ¬ m.boss.hitPts < 1)
    (h3 : ¬ (applySpells raw hard m).1.hitPts < 1)
    (h4 : ¬ (applySpells raw hard m).2.1.hitPts < 1)
    (h5 : ¬ m.turn % 2 = 1) :
    c ∈ winsFrom raw hard m ↔
      ∃ s, legalSpell (applySpells raw hard m).1 (applySpells raw hard m).2.2 s ∧
        c ∈ winsFrom raw hard (playerChild raw m (applySpells raw hard m).1
          (applySpells raw hard m).2.1 (applySpells raw hard m).2.2 s) := by
  simp only [winsFrom, Set.mem_setOf_eq]
  constructor
  · rintro ⟨s, hs⟩
    match s with
    | [] =>
        rw [playOut_playerNil h1 h2 h3 h4 h5] at hs
        exact absurd hs (by simp)
    | a :: rest =>
        rw [playOut_playerCons h1 h2 h3 h4 h5] at hs
        by_cases hleg : legalSpell (applySpells raw hard m).1 (applySpells raw hard m).2.2 a
        · rw [if_pos hleg] at hs
          exact ⟨a, hleg, rest, hs⟩
        · rw [if_neg hleg] at hs
          exact absurd hs (by simp)
  · rintro ⟨s, hleg, rest, hrest⟩
    exact ⟨s :: rest, by rw [playOut_playerCons h1 h2 h3 h4 h5, if_pos hleg]; exact hrest⟩

/-- Every spell requires at least magic missile's 53 mana. -/
theorem legalSpell_mana {p : Player} {e : Effects} {s : SpellChoice}
    (h : legalSpell p e s) : (magicMissile.cost : Int) ≤ p.mana := by
  cases s <;> simp only [legalSpell, magicMissile, drainSpell, shieldSpell, poisonSpell,
    rechargeSpell] at h ⊢ <;> omega

theorem winsFrom_noMana {raw : Int} {hard : Bool} {m : Move}
    (h1 : ¬ m.player.hitPts < 1) (h2 : ¬ m.boss.hitPts < 1)
    (h3 : ¬ (applySpells raw hard m).1.hitPts < 1)
    (h4 : ¬ (applySpells raw hard m).2.1.hitPts < 1)
    (h5 : ¬ m.turn % 2 = 1)
    (hm : (applySpells raw hard m).1.mana < (magicMissile.cost : Int)) :
    winsFrom raw hard m = ∅ := by
  ext c
  simp only [Set.mem_empty_iff_false, iff_false]
  intro hc
  rw [mem_winsFrom_player h1 h2 h3 h4 h5] at hc
  obtain ⟨s, hleg, _⟩ := hc
  exact absurd (legalSpell_mana hleg) (by omega)

theorem mem_ite_push {P : Prop} [Decidable P] {y c : Move} {l : List Move}
    (h : y ∈ (if P then push c l else l)) : (P ∧ y = c) ∨ y ∈ l := by
  by_cases hP : P
  · rw [if_pos hP] at h
    rcases mem_push.mp h with rfl | h
    · exact Or.inl ⟨hP, rfl⟩
    · exact Or.inr h
  · rw [if_neg hP] at h
    exact Or.inr h

theorem subset_ite_push {P : Prop} [Decidable P] (c : Move) (l : List Move) :
    l ⊆ (if P then push c l else l) := by
  by_cases hP : P
  · rw [if_pos hP]
    intro y hy
    exact mem_push_of_mem c hy
  · rw [if_neg hP]
    exact fun y hy => hy

theorem mem_of_ite_push {P : Prop} [Decidable P] (hP : P) (c : Move) (l : List Move) :
    c ∈ (if P then push c l else l) := by
  rw [if_pos hP]
  exact self_mem_push c l

/-- Everything `_add_player_moves` ever pushes is the child of a legal
spell; anything else in the output was already on the frontier. -/
theorem mem_addPlayerMoves {raw : Int} {m : Move} {moves : List Move}
    {p : Player} {b : Boss} {e : Effects} {y : Move}
    (hy : y ∈ addPlayerMoves raw m moves p b e) :
    y ∈ moves ∨ ∃ s, legalSpell p e s ∧ y = playerChild raw m p b e s := by
  unfold addPlayerMoves at hy
  by_cases h0 : p.mana < (magicMissile.cost : Int)
  · rw [if_pos h0] at hy
    exact Or.inl hy
  · rw [if_neg h0] at hy
    dsimp only at hy
    by_cases he1 : (magicMissile.cost : Int) ≤ p.mana ∧ (castMagicMissile p b).2.hitPts < 1
    · rw [if_pos he1] at hy
      rcases mem_ite_push hy with ⟨hg, rfl⟩ | hy
      · exact Or.inr ⟨.missile, hg, rfl⟩
      · exact Or.inl hy
    · rw [if_neg he1] at hy
      by_cases he2 : (drainSpell.cost : Int) ≤ p.mana ∧ (castDrain p b).2.hitPts < 1
      · rw [if_pos he2] at hy
        rcases mem_ite_push hy with ⟨hg, rfl⟩ | hy
        · exact Or.inr ⟨.drain, hg, rfl⟩
        · rcases mem_ite_push hy with ⟨hg, rfl⟩ | hy
          · exact Or.inr ⟨.missile, hg, rfl⟩
          · exact Or.inl hy
      · rw [if_neg he2] at hy
        rcases mem_ite_push hy with ⟨hg, rfl⟩ | hy
        · exact Or.inr ⟨.recharge, hg, rfl⟩
        · rcases mem_ite_push hy with ⟨hg, rfl⟩ | hy
          · exact Or.inr ⟨.poison, hg, rfl⟩
          · rcases mem_ite_push hy with ⟨hg, rfl⟩ | hy
            · exact Or.inr ⟨.shield, hg, rfl⟩
            · rcases mem_ite_push hy with ⟨hg, rfl⟩ | hy
              · exact Or.inr ⟨.drain, hg, rfl⟩
              · rcases mem_ite_push hy with ⟨hg, rfl⟩ | hy
                · exact Or.inr ⟨.missile, hg, rfl⟩
                · exact Or.inl hy

/-- `_add_player_moves` only pushes: the incoming frontier survives. -/
theorem subset_addPlayerMoves (raw : Int) (m : Move) (moves : List Move)
    (p : Player) (b : Boss) (e : Effects) :
    moves ⊆ addPlayerMoves raw m moves p b e := by
  unfold addPlayerMoves
  by_cases h0 : p.mana < (magicMissile.cost : Int)
  · rw [if_pos h0]
    exact fun y hy => hy
  · rw [if_neg h0]
    dsimp only
    by_cases he1 : (magicMissile.cost : Int) ≤ p.mana ∧ (castMagicMissile p b).2.hitPts < 1
    · rw [if_pos he1]
      exact subset_ite_push _ _
    · rw [if_neg he1]
      by_cases he2 : (drainSpell.cost : Int) ≤ p.mana ∧ (castDrain p b).2.hitPts < 1
      · rw [if_pos he2]
        exact (subset_ite_push _ _).trans (subset_ite_push _ _)
      · rw [if_neg he2]
        exact ((((subset_ite_push _ _).trans (subset_ite_push _ _)).trans
          (subset_ite_push _ _)).trans (subset_ite_push _ _)).trans (subset_ite_push _ _)

/-- When no early kill-return fires, every legal spell's child is in the
output of `_add_player_moves`. -/
theorem legal_child_mem_addPlayerMoves {raw : Int} {m : Move} {moves : List Move}
    {p : Player} {b : Boss} {e : Effects} {s : SpellChoice}
    (hkM : ¬ (castMagicMissile p b).2.hitPts < 1)
    (hleg : legalSpell p e s) :
    playerChild raw m p b e s ∈ addPlayerMoves raw m moves p b e := by
  have h53 : (magicMissile.cost : Int) ≤ p.mana := legalSpell_mana hleg
  have hkD : ¬ (castDrain p b).2.hitPts < 1 := by
    simp only [castMagicMissile, castDrain, magicMissile, drainSpell] at hkM ⊢
    omega
  unfold addPlayerMoves
  rw [if_neg (by omega), if_neg (by tauto), if_neg (by tauto)]
  dsimp only
  cases s with
  | missile =>
      apply ((((subset_ite_push _ _).trans (subset_ite_push _ _)).trans
        (subset_ite_push _ _)).trans (subset_ite_push _ _))
      exact mem_of_ite_push h53 _ _
  | drain =>
      apply (((subset_ite_push _ _).trans (subset_ite_push _ _)).trans
        (subset_ite_push _ _))
      exact mem_of_ite_push hleg _ _
  | shield =>
      apply ((subset_ite_push _ _).trans (subset_ite_push _ _))
      exact mem_of_ite_push hleg _ _
  | poison =>
      apply subset_ite_push _ _
      exact mem_of_ite_push hleg _ _
  | recharge =>
      exact mem_of_ite_push hleg _ _

/-- When the missile early return fires, the missile child is in the
output of `_add_player_moves`. -/
theorem missile_child_mem_addPlayerMoves {raw : Int} {m : Move} {moves : List Move}
    {p : Player} {b : Boss} {e : Effects}
    (h53 : (magicMissile.cost : Int) ≤ p.mana)
    (hkM : (castMagicMissile p b).2.hitPts < 1) :
    playerChild raw m p b e .missile ∈ addPlayerMoves raw m moves p b e := by
  unfold addPlayerMoves
  rw [if_neg (by omega), if_pos ⟨h53, hkM⟩]
  exact mem_of_ite_push h53 _ _

theorem mem_addBossMove {m : Move} {moves : List Move} {p : Player} {b : Boss}
    {e : Effects} {y : Move} (hy : y ∈ addBossMove m moves p b e) :
    y ∈ moves ∨ (¬ p.hitPts < 1 ∧ y = bossChild m p b e) := by
  unfold addBossMove at hy
  by_cases h : p.hitPts < 1
  · rw [if_pos h] at hy
    exact Or.inl hy
  · rw [if_neg h] at hy
    rcases mem_push.mp hy with rfl | hy
    · exact Or.inr ⟨h, rfl⟩
    · exact Or.inl hy

theorem subset_addBossMove (m : Move) (moves : List Move) (p : Player) (b : Boss)
    (e : Effects) : moves ⊆ addBossMove m moves p b e := by
  unfold addBossMove
  by_cases h : p.hitPts < 1
  · rw [if_pos h]
    exact fun y hy => hy
  · rw [if_neg h]
    exact fun y hy => mem_push_of_mem _ hy

theorem bossChild_mem_addBossMove {m : Move} {moves : List Move} {p : Player}
    {b : Boss} {e : Effects} (h : ¬ p.hitPts < 1) :
    bossChild m p b e ∈ addBossMove m moves p b e := by
  unfold addBossMove
  rw [if_neg h]
  exact self_mem_push _ _

/-- Coverage through the early kill-returns of `_add_player_moves`: every
win below a legal child of a surviving player state is matched, in the
output frontier, by a node holding a win that costs no more.  When the
missile early return cuts the remaining spells off, the missile child —
an immediate win at the cheapest possible cost from this state — is the
matching node. -/
theorem addPlayerMoves_cover {raw : Int} {hard : Bool} {m : Move}
    {moves : List Move} {p : Player} {b : Boss} {e : Effects} {s : SpellChoice}
    {c : Nat} (hpAlive : ¬ p.hitPts < 1) (hleg : legalSpell p e s)
    (hc : c ∈ winsFrom raw hard (playerChild raw m p b e s)) :
    ∃ y ∈ addPlayerMoves raw m moves p b e, ∃ d ∈ winsFrom raw hard y, d ≤ c := by
  have h53 : (magicMissile.cost : Int) ≤ p.mana := legalSpell_mana hleg
  by_cases hkM : (castMagicMissile p b).2.hitPts < 1
  · refine ⟨playerChild raw m p b e .missile,
      missile_child_mem_addPlayerMoves h53 hkM,
      m.manaUsed + magicMissile.cost, ?_, ?_⟩
    · have hpc : ¬ (playerChild raw m p b e .missile).player.hitPts < 1 := hpAlive
      have hbc : (playerChild raw m p b e .missile).boss.hitPts < 1 := hkM
      exact ⟨[], playOut_winNow hpc hbc⟩
    · obtain ⟨ss, hss⟩ := hc
      have h1 := manaUsed_le_of_playOut hss
      rw [playerChild_manaUsed] at h1
      have h2 := spellCost_ge s
      omega
  · exact ⟨playerChild raw m p b e s, legal_child_mem_addPlayerMoves hkM hleg,
      c, hc, le_rfl⟩

/-- One iteration of the `_get_min_mana` loop preserves the search
invariant: every frontier node is reachable, the best-so-far value is
`sys.maxsize` or the cost of an actual win from the root, and every win
from the root costing at most `sys.maxsize` is matched either by the
best-so-far value or by a cheaper-or-equal win below some frontier node. -/
theorem stepFrontier_preserves {raw : Int} {hard : Bool} {init m : Move}
    {rest : List Move} {best : Nat}
    (hm : Reach raw hard init m)
    (hrest : ∀ y ∈ rest, Reach raw hard init y)
    (hbest : best = maxsize ∨ (best ∈ winsFrom raw hard init ∧ best ≤ maxsize))
    (hcov : ∀ c ∈ winsFrom raw hard init, c ≤ maxsize →
        best ≤ c ∨ (∃ d ∈ winsFrom raw hard m, d ≤ c) ∨
          ∃ y ∈ rest, ∃ d ∈ winsFrom raw hard y, d ≤ c) :
    (∀ y ∈ (stepFrontier raw hard m rest best).1, Reach raw hard init y) ∧
    ((stepFrontier raw hard m rest best).2 = maxsize ∨
      ((stepFrontier raw hard m rest best).2 ∈ winsFrom raw hard init ∧
        (stepFrontier raw hard m rest best).2 ≤ maxsize)) ∧
    (∀ c ∈ winsFrom raw hard init, c ≤ maxsize →
        (stepFrontier raw hard m rest best).2 ≤ c ∨
          ∃ y ∈ (stepFrontier raw hard m rest best).1,
            ∃ d ∈ winsFrom raw hard y, d ≤ c) := by
  have hbestle : best ≤ maxsize := by
    rcases hbest with rfl | ⟨_, h⟩
    · exact le_rfl
    · exact h
  unfold stepFrontier
  by_cases hA : m.player.hitPts < 1 ∨ best < m.manaUsed
  · rw [if_pos hA]
    refine ⟨hrest, hbest, ?_⟩
    intro c hc hcle
    rcases hcov c hc hcle with h | ⟨d, hd, hdle⟩ | ⟨y, hy, d, hd, hdle⟩
    · exact Or.inl h
    · rcases hA with hdead | hlt
      · rw [winsFrom_dead hdead] at hd
        exact absurd hd (Set.not_mem_empty d)
      · obtain ⟨ss, hss⟩ := hd
        have := manaUsed_le_of_playOut hss
        exact Or.inl (by omega)
    · exact Or.inr ⟨y, hy, d, hd, hdle⟩
  · rw [if_neg hA]
    have hAlive : ¬ m.player.hitPts < 1 := fun h => hA (Or.inl h)
    have hmana : m.manaUsed ≤ best := Nat.not_lt.mp (fun h => hA (Or.inr h))
    by_cases hB : m.boss.hitPts < 1
    · rw [if_pos hB]
      have hmin : min best m.manaUsed = m.manaUsed := min_eq_right hmana
      have hmw : m.manaUsed ∈ winsFrom raw hard init :=
        winsFrom_subset_of_reach hm
          (by rw [winsFrom_winNow hAlive hB]; exact Set.mem_singleton _)
      refine ⟨hrest, Or.inr (by rw [hmin]; exact ⟨hmw, le_trans hmana hbestle⟩), ?_⟩
      intro c hc hcle
      rcases hcov c hc hcle with h | ⟨d, hd, hdle⟩ | ⟨y, hy, d, hd, hdle⟩
      · exact Or.inl (le_trans (min_le_left _ _) h)
      · rw [winsFrom_winNow hAlive hB] at hd
        have hdm : d = m.manaUsed := hd
        exact Or.inl (le_trans (min_le_right _ _) (hdm ▸ hdle))
      · exact Or.inr ⟨y, hy, d, hd, hdle⟩
    · rw [if_neg hB]
      by_cases hC : (applySpells raw hard m).1.hitPts < 1
      · rw [if_pos hC]
        refine ⟨hrest, hbest, ?_⟩
        intro c hc hcle
        rcases hcov c hc hcle with h | ⟨d, hd, _⟩ | ⟨y, hy, d, hd, hdle⟩
        · exact Or.inl h
        · rw [winsFrom_postDead hAlive hB hC] at hd
          exact absurd hd (Set.not_mem_empty d)
        · exact Or.inr ⟨y, hy, d, hd, hdle⟩
      · rw [if_neg hC]
        by_cases hD : (applySpells raw hard m).2.1.hitPts < 1
        · rw [if_pos hD]
          have hmin : min best m.manaUsed = m.manaUsed := min_eq_right hmana
          have hmw : m.manaUsed ∈ winsFrom raw hard init :=
            winsFrom_subset_of_reach hm
              (by rw [winsFrom_postWin hAlive hB hC hD]; exact Set.mem_singleton _)
          refine ⟨hrest, Or.inr (by rw [hmin]; exact ⟨hmw, le_trans hmana hbestle⟩), ?_⟩
          intro c hc hcle
          rcases hcov c hc hcle with h | ⟨d, hd, hdle⟩ | ⟨y, hy, d, hd, hdle⟩
          · exact Or.inl (le_trans (min_le_left _ _) h)
          · rw [winsFrom_postWin hAlive hB hC hD] at hd
            have hdm : d = m.manaUsed := hd
            exact Or.inl (le_trans (min_le_right _ _) (hdm ▸ hdle))
          · exact Or.inr ⟨y, hy, d, hd, hdle⟩
        · rw [if_neg hD]
          by_cases hE : m.turn % 2 = 1
          · rw [if_pos hE]
            refine ⟨?_, hbest, ?_⟩
            · intro y hy
              rcases mem_addBossMove hy with hy | ⟨_, rfl⟩
              · exact hrest y hy
              · exact Reach.bossStep hm hAlive hB hC hD hE
            · intro c hc hcle
              rcases hcov c hc hcle with h | ⟨d, hd, hdle⟩ | ⟨y, hy, d, hd, hdle⟩
              · exact Or.inl h
              · rw [winsFrom_boss hAlive hB hC hD hE] at hd
                exact Or.inr ⟨bossChild m (applySpells raw hard m).1
                  (applySpells raw hard m).2.1 (applySpells raw hard m).2.2,
                  bossChild_mem_addBossMove hC, d, hd, hdle⟩
              · exact Or.inr ⟨y, subset_addBossMove _ _ _ _ _ hy, d, hd, hdle⟩
          · rw [if_neg hE]
            refine ⟨?_, hbest, ?_⟩
            · intro y hy
              rcases mem_addPlayerMoves hy with hy | ⟨s, hleg, rfl⟩
              · exact hrest y hy
              · exact Reach.playerStep s hm hAlive hB hC hD hE hleg
            · intro c hc hcle
              rcases hcov c hc hcle with h | ⟨d, hd, hdle⟩ | ⟨y, hy, d, hd, hdle⟩
              · exact Or.inl h
              · rw [mem_winsFrom_player hAlive hB hC hD hE] at hd
                obtain ⟨s, hleg, hd⟩ := hd
                obtain ⟨y, hy, dd, hdd, hddle⟩ := addPlayerMoves_cover hC hleg hd
                exact Or.inr ⟨y, hy, dd, hdd, le_trans hddle hdle⟩
              · exact Or.inr ⟨y, subset_addPlayerMoves _ _ _ _ _ _ hy, d, hd, hdle⟩

/-- On an exhausted frontier the invariant forces the best-so-far value to
be the least element of the winning costs together with the sentinel. -/
theorem final_isLeast {raw : Int} {hard : Bool} {init : Move} {best : Nat}
    (hbest : best = maxsize ∨ (best ∈ winsFrom raw hard init ∧ best ≤ maxsize))
    (hcov : ∀ c ∈ winsFrom raw hard init, c ≤ maxsize → best ≤ c) :
    IsLeast (winsFrom raw hard init ∪ {maxsize}) best := by
  have hble : best ≤ maxsize := by
    rcases hbest with rfl | ⟨_, h⟩
    · exact le_rfl
    · exact h
  constructor
  · rcases hbest with rfl | ⟨h, _⟩
    · exact Or.inr rfl
    · exact Or.inl h
  · intro c hc
    rcases hc with hc | hc
    · by_cases hcle : c ≤ maxsize
      · exact hcov c hc hcle
      · omega
    · have : c = maxsize := hc
      omega

/-- The `while moves:` loop of `_get_min_mana`, run to frontier
exhaustion from any state satisfying the search invariant, returns the
least element of the winning-play costs together with `sys.maxsize`. -/
theorem searchLoop_isLeast {raw : Int} {hard : Bool} {init : Move} :
    ∀ (fuel : Nat) (frontier : List Move) (best r : Nat),
      (∀ y ∈ frontier, Reach raw hard init y) →
      (best = maxsize ∨ (best ∈ winsFrom raw hard init ∧ best ≤ maxsize)) →
      (∀ c ∈ winsFrom raw hard init, c ≤ maxsize →
          best ≤ c ∨ ∃ y ∈ frontier, ∃ d ∈ winsFrom raw hard y, d ≤ c) →
      searchLoop raw hard fuel frontier best = some r →
      IsLeast (winsFrom raw hard init ∪ {maxsize}) r := by
  intro fuel
  induction fuel with
  | zero =>
      intro frontier best r hfr hbest hcov hrun
      match frontier with
      | [] =>
          simp only [searchLoop, Option.some.injEq] at hrun
          subst hrun
          refine final_isLeast hbest ?_
          intro c hc hcle
          rcases hcov c hc hcle with h | ⟨y, hy, _⟩
          · exact h
          · exact absurd hy (List.not_mem_nil y)
      | x :: xs =>
          simp only [searchLoop] at hrun
          exact absurd hrun (by simp)
  | succ fuel ih =>
      intro frontier best r hfr hbest hcov hrun
      match frontier with
      | [] =>
          simp only [searchLoop, Option.some.injEq] at hrun
          subst hrun
          refine final_isLeast hbest ?_
          intro c hc hcle
          rcases hcov c hc hcle with h | ⟨y, hy, _⟩
          · exact h
          · exact absurd hy (List.not_mem_nil y)
      | x :: xs =>
          simp only [searchLoop] at hrun
          have hmmem : minMove x xs ∈ x :: xs := minMove_mem x xs
          have hm : Reach raw hard init (minMove x xs) := hfr _ hmmem
          have hrest : ∀ y ∈ (x :: xs).erase (minMove x xs), Reach raw hard init y :=
            fun y hy => hfr y (List.erase_subset _ _ hy)
          have hcov2 : ∀ c ∈ winsFrom raw hard init, c ≤ maxsize →
              best ≤ c ∨ (∃ d ∈ winsFrom raw hard (minMove x xs), d ≤ c) ∨
                ∃ y ∈ (x :: xs).erase (minMove x xs),
                  ∃ d ∈ winsFrom raw hard y, d ≤ c := by
            intro c hc hcle
            rcases hcov c hc hcle with h | ⟨y, hy, d, hd, hdle⟩
            · exact Or.inl h
            · by_cases hym : y = minMove x xs
              · exact Or.inr (Or.inl ⟨d, hym ▸ hd, hdle⟩)
              · exact Or.inr (Or.inr ⟨y, (List.mem_erase_of_ne hym).mpr hy, d, hd, hdle⟩)
          obtain ⟨hfr2, hbest2, hcov3⟩ := stepFrontier_preserves hm hrest hbest hcov2
          exact ih _ _ r hfr2 hbest2 hcov3 hrun

/-- `_get_min_mana`, whenever its loop exhausts the frontier, returns the
least element of the set of winning-play costs from the initial state
together with the `sys.maxsize` sentinel it starts from. -/
theorem getMinMana_isLeast {player : Player} {boss : Boss} {hard : Bool}
    {fuel r : Nat} (hrun : getMinMana player boss hard fuel = some r) :
    IsLeast (winsFrom boss.damage hard ⟨0, 0, player, boss, ⟨0, 0, 0⟩⟩ ∪ {maxsize}) r := by
  refine searchLoop_isLeast fuel [⟨0, 0, player, boss, ⟨0, 0, 0⟩⟩] maxsize r ?_ ?_ ?_ hrun
  · intro y hy
    rw [List.mem_singleton] at hy
    subst hy
    exact Reach.refl _
  · exact Or.inl rfl
  · intro c hc hcle
    exact Or.inr ⟨⟨0, 0, player, boss, ⟨0, 0, 0⟩⟩, List.mem_singleton_self _, c, hc, le_rfl⟩

theorem applySpells_true_hitPts_le (raw : Int) (m : Move) :
    (applySpells raw true m).1.hitPts ≤ m.player.hitPts := by
  simp only [applySpells]
  split
  · omega
  · omega

theorem applySpells_false_player_hitPts (raw : Int) (m : Move) :
    (applySpells raw false m).1.hitPts = m.player.hitPts := by
  simp [applySpells]

/-- Spell legality only looks at the caster's mana and the active
effects. -/
theorem legalSpell_congr {p q : Player} {e f : Effects} (s : SpellChoice)
    (hm : p.mana = q.mana) (he : e = f) : legalSpell p e s ↔ legalSpell q f s := by
  subst he
  cases s <;> simp [legalSpell, hm]

@[simp] theorem withHp_turn (m : Move) (hp : Int) : (withHp m hp).turn = m.turn := rfl

@[simp] theorem withHp_manaUsed (m : Move) (hp : Int) :
    (withHp m hp).manaUsed = m.manaUsed := rfl

@[simp] theorem withHp_player_hitPts (m : Move) (hp : Int) :
    (withHp m hp).player.hitPts = hp := rfl

@[simp] theorem withHp_player_mana (m : Move) (hp : Int) :
    (withHp m hp).player.mana = m.player.mana := rfl

@[simp] theorem withHp_boss (m : Move) (hp : Int) : (withHp m hp).boss = m.boss := rfl

@[simp] theorem withHp_effects (m : Move) (hp : Int) :
    (withHp m hp).effects = m.effects := rfl

theorem withHp_self (m : Move) : withHp m m.player.hitPts = m := rfl

/-- Normal mode applies the same start-of-turn effects as hard mode except
for the self-damage: only the resulting player hit points differ. -/
theorem applySpells_withHp (raw : Int) (m : Move) (hp : Int) :
    applySpells raw false (withHp m hp) =
      (⟨hp, (applySpells raw true m).1.mana⟩,
       (applySpells raw true m).2.1, (applySpells raw true m).2.2) := by
  simp [applySpells, withHp]

/-- A winning hard-mode play also wins, at the same cost, in normal mode
from the same state with at least as many player hit points: the hard-mode
self-damage only ever lowers the player's hit points, and hit points feed
nothing but the survival checks. -/
theorem playOut_hard_to_normal {raw : Int} :
    ∀ {m : Move} {s : List SpellChoice} {c : Nat},
      playOut raw true m s = some c →
      ∀ {hp : Int}, m.player.hitPts ≤ hp →
        playOut raw false (withHp m hp) s = some c := by
  intro m s
  induction m, s using playOut.induct raw true with
  | case1 m spells h1 =>
      intro c hc
      rw [playOut_dead h1] at hc
      exact absurd hc (by simp)
  | case2 m spells h1 h2 =>
      intro c hc hp hhp
      rw [playOut_winNow h1 h2] at hc
      have g1 : ¬ (withHp m hp).player.hitPts < 1 := by
        rw [withHp_player_hitPts]
        omega
      have g2 : (withHp m hp).boss.hitPts < 1 := by
        rw [withHp_boss]
        exact h2
      rw [playOut_winNow g1 g2, withHp_manaUsed]
      exact hc
  | case3 m spells h1 h2 h3 =>
      intro c hc
      rw [playOut_postDead h1 h2 h3] at hc
      exact absurd hc (by simp)
  | case4 m spells h1 h2 h3 h4 =>
      intro c hc hp hhp
      rw [playOut_postWin h1 h2 h3 h4] at hc
      have hle := applySpells_true_hitPts_le raw m
      have g1 : ¬ (withHp m hp).player.hitPts < 1 := by
        rw [withHp_player_hitPts]
        omega
      have g2 : ¬ (withHp m hp).boss.hitPts < 1 := by
        rw [withHp_boss]
        exact h2
      have g3 : ¬ (applySpells raw false (withHp m hp)).1.hitPts < 1 := by
        rw [applySpells_withHp]
        show ¬ hp < 1
        omega
      have g4 : (applySpells raw false (withHp m hp)).2.1.hitPts < 1 := by
        rw [applySpells_withHp]
        exact h4
      rw [playOut_postWin g1 g2 g3 g4, withHp_manaUsed]
      exact hc
  | case5 m spells h1 h2 h3 h4 h5 ih =>
      intro c hc hp hhp
      rw [playOut_bossTurn h1 h2 h3 h4 h5] at hc
      have hle := applySpells_true_hitPts_le raw m
      have g1 : ¬ (withHp m hp).player.hitPts < 1 := by
        rw [withHp_player_hitPts]
        omega
      have g2 : ¬ (withHp m hp).boss.hitPts < 1 := by
        rw [withHp_boss]
        exact h2
      have g3 : ¬ (applySpells raw false (withHp m hp)).1.hitPts < 1 := by
        rw [applySpells_withHp]
        show ¬ hp < 1
        omega
      have g4 : ¬ (applySpells raw false (withHp m hp)).2.1.hitPts < 1 := by
        rw [applySpells_withHp]
        exact h4
      have g5 : (withHp m hp).turn % 2 = 1 := by
        rw [withHp_turn]
        exact h5
      rw [playOut_bossTurn g1 g2 g3 g4 g5, applySpells_withHp]
      dsimp only
      have heq : bossChild (withHp m hp) ⟨hp, (applySpells raw true m).1.mana⟩
          (applySpells raw true m).2.1 (applySpells raw true m).2.2 =
          withHp (bossChild m (applySpells raw true m).1 (applySpells raw true m).2.1
            (applySpells raw true m).2.2)
            (hp - (applySpells raw true m).2.1.damage) := by
        simp [bossChild, withHp]
      rw [heq]
      refine ih hc ?_
      show (applySpells raw true m).1.hitPts - (applySpells raw true m).2.1.damage ≤
        hp - (applySpells raw true m).2.1.damage
      omega
  | case6 m h1 h2 h3 h4 h5 =>
      intro c hc
      rw [playOut_playerNil h1 h2 h3 h4 h5] at hc
      exact absurd hc (by simp)
  | case7 m h1 h2 h3 h4 h5 s rest hleg ih =>
      intro c hc hp hhp
      rw [playOut_playerCons h1 h2 h3 h4 h5, if_pos hleg] at hc
      have hle := applySpells_true_hitPts_le raw m
      have g1 : ¬ (withHp m hp).player.hitPts < 1 := by
        rw [withHp_player_hitPts]
        omega
      have g2 : ¬ (withHp m hp).boss.hitPts < 1 := by
        rw [withHp_boss]
        exact h2
      have g3 : ¬ (applySpells raw false (withHp m hp)).1.hitPts < 1 := by
        rw [applySpells_withHp]
        show ¬ hp < 1
        omega
      have g4 : ¬ (applySpells raw false (withHp m hp)).2.1.hitPts < 1 := by
        rw [applySpells_withHp]
        exact h4
      have g5 : ¬ (withHp m hp).turn % 2 = 1 := by
        rw [withHp_turn]
        exact h5
      rw [playOut_playerCons g1 g2 g3 g4 g5, applySpells_withHp]
      dsimp only
      have gleg : legalSpell ⟨hp, (applySpells raw true m).1.mana⟩
          (applySpells raw true m).2.2 s := (legalSpell_congr s rfl rfl).mpr hleg
      rw [if_pos gleg]
      cases s with
      | missile =>
          have heq : playerChild raw (withHp m hp) ⟨hp, (applySpells raw true m).1.mana⟩
              (applySpells raw true m).2.1 (applySpells raw true m).2.2 .missile =
              withHp (playerChild raw m (applySpells raw true m).1
                (applySpells raw true m).2.1 (applySpells raw true m).2.2 .missile) hp := by
            simp [playerChild, castMagicMissile, withHp]
          rw [heq]
          exact ih hc (by
            show (applySpells raw true m).1.hitPts ≤ hp
            omega)
      | drain =>
          have heq : playerChild raw (withHp m hp) ⟨hp, (applySpells raw true m).1.mana⟩
              (applySpells raw true m).2.1 (applySpells raw true m).2.2 .drain =
              withHp (playerChild raw m (applySpells raw true m).1
                (applySpells raw true m).2.1 (applySpells raw true m).2.2 .drain)
                (hp + drainSpell.effect) := by
            simp [playerChild, castDrain, withHp]
          rw [heq]
          exact ih hc (by
            show (applySpells raw true m).1.hitPts + drainSpell.effect ≤
              hp + drainSpell.effect
            simp only [drainSpell]
            omega)
      | shield =>
          have heq : playerChild raw (withHp m hp) ⟨hp, (applySpells raw true m).1.mana⟩
              (applySpells raw true m).2.1 (applySpells raw true m).2.2 .shield =
              withHp (playerChild raw m (applySpells raw true m).1
                (applySpells raw true m).2.1 (applySpells raw true m).2.2 .shield) hp := by
            simp [playerChild, castShield, withHp]
          rw [heq]
          exact ih hc (by
            show (applySpells raw true m).1.hitPts ≤ hp
            omega)
      | poison =>
          have heq : playerChild raw (withHp m hp) ⟨hp, (applySpells raw true m).1.mana⟩
              (applySpells raw true m).2.1 (applySpells raw true m).2.2 .poison =
              withHp (playerChild raw m (applySpells raw true m).1
                (applySpells raw true m).2.1 (applySpells raw true m).2.2 .poison) hp := by
            simp [playerChild, castPoison, withHp]
          rw [heq]
          exact ih hc (by
            show (applySpells raw true m).1.hitPts ≤ hp
            omega)
      | recharge =>
          have heq : playerChild raw (withHp m hp) ⟨hp, (applySpells raw true m).1.mana⟩
              (applySpells raw true m).2.1 (applySpells raw true m).2.2 .recharge =
              withHp (playerChild raw m (applySpells raw true m).1
                (applySpells raw true m).2.1 (applySpells raw true m).2.2 .recharge) hp := by
            simp [playerChild, castRecharge, withHp]
          rw [heq]
          exact ih hc (by
            show (applySpells raw true m).1.hitPts ≤ hp
            omega)
  | case8 m h1 h2 h3 h4 h5 s rest hleg =>
      intro c hc
      rw [playOut_playerCons h1 h2 h3 h4 h5, if_neg hleg] at hc
      exact absurd hc (by simp)

/-- Every hard-mode winning cost is also a normal-mode winning cost. -/
theorem winsFrom_hard_subset (raw : Int) (m : Move) :
    winsFrom raw true m ⊆ winsFrom raw false m := by
  intro c hc
  obtain ⟨s, hs⟩ := hc
  refine ⟨s, ?_⟩
  have h := playOut_hard_to_normal hs (le_refl m.player.hitPts)
  rwa [withHp_self] at h

theorem moveLt_irrefl (a : Move) : ¬ moveLt a a := by
  unfold moveLt
  omega

theorem moveLt_trans {a b c : Move} (h1 : moveLt a b) (h2 : moveLt b c) :
    moveLt a c := by
  unfold moveLt at h1 h2 ⊢
  omega

theorem moveLt_le_trans {a b c : Move} (h1 : ¬ moveLt b a) (h2 : moveLt b c) :
    moveLt a c := by
  unfold moveLt at h1 h2 ⊢
  omega

/-- `heapq.heappop` via `minMove`: nothing on the frontier is strictly
below the popped node. -/
theorem minMove_not_lt (x : Move) (xs : List Move) :
    ∀ y ∈ x :: xs, ¬ moveLt y (minMove x xs) := by
  unfold minMove
  induction xs generalizing x with
  | nil =>
      intro y hy
      rw [List.mem_singleton] at hy
      subst hy
      exact moveLt_irrefl y
  | cons z zs ih =>
      intro y hy
      rw [List.foldl_cons]
      simp only [List.mem_cons] at hy
      by_cases hzx : moveLt z x
      · rw [if_pos hzx]
        rcases hy with hy | hy | hy
        · rw [hy]
          intro hlt
          exact ih z z (List.mem_cons_self z zs) (moveLt_trans hzx hlt)
        · rw [hy]
          exact ih z z (List.mem_cons_self z zs)
        · exact ih z y (List.mem_cons_of_mem z hy)
      · rw [if_neg hzx]
        rcases hy with hy | hy | hy
        · rw [hy]
          exact ih x x (List.mem_cons_self x zs)
        · rw [hy]
          intro hlt
          exact ih x x (List.mem_cons_self x zs) (moveLt_le_trans hzx hlt)
        · exact ih x y (List.mem_cons_of_mem x hy)

/-- `_cast_shield` sets the boss effective damage to the raw damage minus
7, floored at 1. -/
theorem castShield_damage (raw : Int) (p : Player) (b : Boss) (e : Effects) :
    (castShield raw p b e).2.1.damage = max (raw - 7) 1 := by
  simp only [castShield, shieldSpell]
  split
  · omega
  · omega

/-- Along any reachable state whose shield timer is positive, the boss
snapshot carries the clamped effective damage `max (raw - 7) 1`: it is
written by `_cast_shield` when the shield starts and preserved by
`_apply_spells` and every move until the timer runs out. -/
theorem shield_damage_invariant {raw : Int} {hard : Bool} {init m : Move}
    (h0 : init.effects.shield = 0) (hr : Reach raw hard init m) :
    m.effects.shield ≠ 0 → m.boss.damage = max (raw - 7) 1 := by
  induction hr with
  | refl => intro h; exact absurd h0 h
  | @playerStep x s hr h1 h2 h3 h4 h5 hleg ih =>
      intro hsh
      cases s with
      | missile =>
          simp only [playerChild, castMagicMissile, applySpells] at hsh ⊢
          have hx : x.effects.shield ≠ 0 := by omega
          rw [if_neg hx]
          exact ih hx
      | drain =>
          simp only [playerChild, castDrain, applySpells] at hsh ⊢
          have hx : x.effects.shield ≠ 0 := by omega
          rw [if_neg hx]
          exact ih hx
      | shield =>
          simp only [playerChild]
          exact castShield_damage raw _ _ _
      | poison =>
          simp only [playerChild, castPoison, applySpells] at hsh ⊢
          have hx : x.effects.shield ≠ 0 := by omega
          rw [if_neg hx]
          exact ih hx
      | recharge =>
          simp only [playerChild, castRecharge, applySpells] at hsh ⊢
          have hx : x.effects.shield ≠ 0 := by omega
          rw [if_neg hx]
          exact ih hx
  | @bossStep x hr h1 h2 h3 h4 h5 ih =>
      intro hsh
      simp only [bossChild, applySpells] at hsh ⊢
      have hx : x.effects.shield ≠ 0 := by omega
      rw [if_neg hx]
      exact ih hx

/-- C1: for every player and boss configuration for which some legal play
sequence wins the fight (spending at most the `sys.maxsize` sentinel),
`_get_min_mana` — whenever its loop runs to frontier exhaustion — returns
the minimum, over all legal play sequences, of the total mana spent on
spells cast by the player along a winning sequence, in both normal and
hard mode. -/
theorem C1_getMinMana_returns_minimum (player : Player) (boss : Boss)
    (hard : Bool) (fuel r : Nat)
    (hrun : getMinMana player boss hard fuel = some r)
    (hwin : ∃ c ∈ winsFrom boss.damage hard ⟨0, 0, player, boss, ⟨0, 0, 0⟩⟩,
      c ≤ maxsize) :
    IsLeast (winsFrom boss.damage hard ⟨0, 0, player, boss, ⟨0, 0, 0⟩⟩) r := by
  obtain ⟨c0, hc0, hc0le⟩ := hwin
  obtain ⟨hmem, hlb⟩ := getMinMana_isLeast hrun
  have hlbW : ∀ b ∈ winsFrom boss.damage hard ⟨0, 0, player, boss, ⟨0, 0, 0⟩⟩,
      r ≤ b := fun b hb => hlb (Set.mem_union_left _ hb)
  rcases hmem with hmem | hmem
  · exact ⟨hmem, hlbW⟩
  · have hrmax : r = maxsize := hmem
    have hrc : r ≤ c0 := hlbW c0 hc0
    have hcr : c0 = r := by omega
    exact ⟨hcr ▸ hc0, hlbW⟩

/-- Witness for C1: a boss with 1 hit point and 100 damage; the search
returns 53, a single magic missile wins for 53 mana, and 53 is the least
winning cost. -/
theorem C1_witness :
    getMinMana ⟨50, 500⟩ ⟨1, 100⟩ false 5 = some 53 ∧
    (∃ c ∈ winsFrom (100 : Int) false ⟨0, 0, ⟨50, 500⟩, ⟨1, 100⟩, ⟨0, 0, 0⟩⟩,
      c ≤ maxsize) ∧
    IsLeast (winsFrom (100 : Int) false ⟨0, 0, ⟨50, 500⟩, ⟨1, 100⟩, ⟨0, 0, 0⟩⟩) 53 := by
  have hwin : (53 : Nat) ∈ winsFrom (100 : Int) false
      ⟨0, 0, ⟨50, 500⟩, ⟨1, 100⟩, ⟨0, 0, 0⟩⟩ := by
    refine ⟨[.missile], ?_⟩
    rw [playOut_playerCons (by decide) (by decide) (by decide) (by decide) (by decide),
      if_pos (by decide),
      playOut_winNow (by decide) (by decide)]
    decide
  exact ⟨by decide, ⟨53, hwin, by decide⟩,
    C1_getMinMana_returns_minimum ⟨50, 500⟩ ⟨1, 100⟩ false 5 53 (by decide)
      ⟨53, hwin, by decide⟩⟩

/-- C2 counterexample: `Move` nodes are compared with the turn index as
the PRIMARY key, not cumulative mana spent: a node that has spent 300 mana
on turn 1 sorts strictly below — and is popped by the frontier before — a
node that has spent 53 mana on turn 2. -/
theorem C2_counterexample :
    moveLt ⟨1, 300, ⟨50, 500⟩, ⟨10, 8⟩, ⟨0, 0, 0⟩⟩
        ⟨2, 53, ⟨50, 500⟩, ⟨10, 8⟩, ⟨0, 0, 0⟩⟩ ∧
    (⟨2, 53, ⟨50, 500⟩, ⟨10, 8⟩, ⟨0, 0, 0⟩⟩ : Move).manaUsed <
      (⟨1, 300, ⟨50, 500⟩, ⟨10, 8⟩, ⟨0, 0, 0⟩⟩ : Move).manaUsed ∧
    minMove ⟨1, 300, ⟨50, 500⟩, ⟨10, 8⟩, ⟨0, 0, 0⟩⟩
        [⟨2, 53, ⟨50, 500⟩, ⟨10, 8⟩, ⟨0, 0, 0⟩⟩] =
      ⟨1, 300, ⟨50, 500⟩, ⟨10, 8⟩, ⟨0, 0, 0⟩⟩ := by
  exact ⟨by decide, by decide, by decide⟩

/-- C2 (amended): `Move` search nodes are totally ordered
lexicographically with the turn index ascending as the primary key and
cumulative mana spent only as the second key; the frontier pop returns a
least node in this order (so the first complete winning state popped need
not be minimum-mana — optimality instead comes from exhausting the
frontier, as proved for C1). -/
theorem C2_amended :
    (∀ a b : Move, a.turn < b.turn → moveLt a b) ∧
    (∀ a b : Move, moveLt a b → a.turn ≤ b.turn) ∧
    (∀ a b : Move, a.turn = b.turn → a.manaUsed < b.manaUsed → moveLt a b) ∧
    (∀ a b : Move, moveLt a b → a.turn = b.turn → a.manaUsed ≤ b.manaUsed) ∧
    (∀ (x : Move) (xs : List Move), minMove x xs ∈ x :: xs) ∧
    (∀ (x : Move) (xs : List Move), ∀ y ∈ x :: xs, ¬ moveLt y (minMove x xs)) := by
  refine ⟨?_, ?_, ?_, ?_, minMove_mem, minMove_not_lt⟩
  · intro a b h
    unfold moveLt
    omega
  · intro a b h
    unfold moveLt at h
    omega
  · intro a b h1 h2
    unfold moveLt
    omega
  · intro a b h h1
    unfold moveLt at h
    omega

/-- Witness for the amended C2 at concrete nodes. -/
theorem C2_witness :
    moveLt ⟨0, 999, ⟨1, 1⟩, ⟨1, 1⟩, ⟨0, 0, 0⟩⟩ ⟨1, 0, ⟨1, 1⟩, ⟨1, 1⟩, ⟨0, 0, 0⟩⟩ ∧
    moveLt ⟨3, 5, ⟨1, 1⟩, ⟨1, 1⟩, ⟨0, 0, 0⟩⟩ ⟨3, 7, ⟨1, 1⟩, ⟨1, 1⟩, ⟨0, 0, 0⟩⟩ :=
  ⟨C2_amended.1 _ _ (by decide), C2_amended.2.2.1 _ _ (by decide) (by decide)⟩

/-- C4: each timed effect with a positive timer applies on the turn
(poison deals 3 to the boss, recharge grants 101 mana, shield keeps the
boss effective damage rather than resetting it to raw) and its timer is
decremented by one; a zero timer means the effect does nothing and stays
zero, so an effect with timer 1 still applies on the turn it expires. -/
theorem C4_effects_apply_and_expire (raw : Int) (hard : Bool) (m : Move) :
    (1 ≤ m.effects.poison →
      (applySpells raw hard m).2.1.hitPts = m.boss.hitPts - 3 ∧
      (applySpells raw hard m).2.2.poison = m.effects.poison - 1) ∧
    (m.effects.poison = 0 →
      (applySpells raw hard m).2.1.hitPts = m.boss.hitPts ∧
      (applySpells raw hard m).2.2.poison = 0) ∧
    (1 ≤ m.effects.recharge →
      (applySpells raw hard m).1.mana = m.player.mana + 101 ∧
      (applySpells raw hard m).2.2.recharge = m.effects.recharge - 1) ∧
    (m.effects.recharge = 0 →
      (applySpells raw hard m).1.mana = m.player.mana ∧
      (applySpells raw hard m).2.2.recharge = 0) ∧
    (1 ≤ m.effects.shield →
      (applySpells raw hard m).2.1.damage = m.boss.damage ∧
      (applySpells raw hard m).2.2.shield = m.effects.shield - 1) ∧
    (m.effects.shield = 0 →
      (applySpells raw hard m).2.1.damage = raw ∧
      (applySpells raw hard m).2.2.shield = 0) := by
  refine ⟨?_, ?_, ?_, ?_, ?_, ?_⟩
  · intro h
    have hne : m.effects.poison ≠ 0 := by omega
    simp [applySpells, hne, poisonSpell]
  · intro h
    simp [applySpells, h]
  · intro h
    have hne : m.effects.recharge ≠ 0 := by omega
    simp [applySpells, hne, rechargeSpell]
  · intro h
    simp [applySpells, h]
  · intro h
    have hne : m.effects.shield ≠ 0 := by omega
    simp [applySpells, hne]
  · intro h
    simp [applySpells, h]

/-- Witness for C4: all three timers at 1 apply and expire. -/
theorem C4_witness :
    (applySpells 9 false ⟨0, 0, ⟨50, 500⟩, ⟨20, 9⟩, ⟨1, 1, 1⟩⟩).2.1.hitPts = 20 - 3 ∧
    (applySpells 9 false ⟨0, 0, ⟨50, 500⟩, ⟨20, 9⟩, ⟨1, 1, 1⟩⟩).2.2.poison = 0 ∧
    (applySpells 9 false ⟨0, 0, ⟨50, 500⟩, ⟨20, 9⟩, ⟨1, 1, 1⟩⟩).1.mana = 500 + 101 ∧
    (applySpells 9 false ⟨0, 0, ⟨50, 500⟩, ⟨20, 9⟩, ⟨1, 1, 1⟩⟩).2.2.recharge = 0 ∧
    (applySpells 9 false ⟨0, 0, ⟨50, 500⟩, ⟨20, 9⟩, ⟨1, 1, 1⟩⟩).2.1.damage = 9 ∧
    (applySpells 9 false ⟨0, 0, ⟨50, 500⟩, ⟨20, 9⟩, ⟨1, 1, 1⟩⟩).2.2.shield = 0 := by
  obtain ⟨p1, _, r1, _, s1, _⟩ :=
    C4_effects_apply_and_expire 9 false ⟨0, 0, ⟨50, 500⟩, ⟨20, 9⟩, ⟨1, 1, 1⟩⟩
  have hp := p1 (by decide)
  have hr := r1 (by decide)
  have hs := s1 (by decide)
  exact ⟨hp.1, hp.2, hr.1, hr.2, hs.1, hs.2⟩

/-- C5 counterexample: a legal spell that produces no child on the
frontier.  With the boss at 4 hit points and the player holding 500 mana
with no active effect, poison is affordable and legal, yet the missile
early return drops it: its child state is not in the output of
`_add_player_moves`. -/
theorem C5_counterexample :
    legalSpell ⟨50, 500⟩ ⟨0, 0, 0⟩ .poison ∧
    playerChild 8 ⟨0, 0, ⟨50, 500⟩, ⟨4, 8⟩, ⟨0, 0, 0⟩⟩ ⟨50, 500⟩ ⟨4, 8⟩ ⟨0, 0, 0⟩
        .poison ∉
      addPlayerMoves 8 ⟨0, 0, ⟨50, 500⟩, ⟨4, 8⟩, ⟨0, 0, 0⟩⟩ [] ⟨50, 500⟩ ⟨4, 8⟩
        ⟨0, 0, 0⟩ := by
  exact ⟨by decide, by decide⟩

/-- C5 (amended): on the player turn, every legal spell produces its
distinct child state on the frontier UNLESS a magic missile (or drain)
kill short-circuits the branching — after a spell leaves the boss below 1
hit point the remaining spells in the fixed order are skipped, and when
the missile kills, the output frontier is exactly the old frontier plus
the missile child; a state whose player cannot afford magic missile (the
cheapest spell, so no spell is affordable) produces no children; and
nothing else is ever added. -/
theorem C5_amended (raw : Int) (m : Move) (moves : List Move) (p : Player)
    (b : Boss) (e : Effects) :
    (p.mana < (magicMissile.cost : Int) → addPlayerMoves raw m moves p b e = moves) ∧
    (∀ s, legalSpell p e s → ¬ (castMagicMissile p b).2.hitPts < 1 →
      playerChild raw m p b e s ∈ addPlayerMoves raw m moves p b e) ∧
    ((magicMissile.cost : Int) ≤ p.mana → (castMagicMissile p b).2.hitPts < 1 →
      addPlayerMoves raw m moves p b e = push (playerChild raw m p b e .missile) moves) ∧
    (∀ y ∈ addPlayerMoves raw m moves p b e,
      y ∈ moves ∨ ∃ s, legalSpell p e s ∧ y = playerChild raw m p b e s) ∧
    (∀ s t : SpellChoice, s ≠ t →
      playerChild raw m p b e s ≠ playerChild raw m p b e t) := by
  refine ⟨?_, ?_, ?_, fun y hy => mem_addPlayerMoves hy, ?_⟩
  · intro h
    unfold addPlayerMoves
    rw [if_pos h]
  · intro s hleg hkM
    exact legal_child_mem_addPlayerMoves hkM hleg
  · intro h53 hkM
    unfold addPlayerMoves
    rw [if_neg (by omega)]
    dsimp only
    rw [if_pos ⟨h53, hkM⟩, if_pos h53]
  · intro s t hne heq
    have h := congrArg Move.manaUsed heq
    rw [playerChild_manaUsed, playerChild_manaUsed] at h
    have hcost : spellCost s = spellCost t := by omega
    cases s <;> cases t <;>
      first
        | exact hne rfl
        | (revert hcost; decide)

/-- Witness for the amended C5: a state with 40 mana produces no children;
with 500 mana and a 10-hit-point boss (no kill), the poison child is on
the frontier. -/
theorem C5_witness :
    addPlayerMoves 8 ⟨0, 0, ⟨50, 40⟩, ⟨10, 8⟩, ⟨0, 0, 0⟩⟩ [] ⟨50, 40⟩ ⟨10, 8⟩
        ⟨0, 0, 0⟩ = [] ∧
    playerChild 8 ⟨0, 0, ⟨50, 500⟩, ⟨10, 8⟩, ⟨0, 0, 0⟩⟩ ⟨50, 500⟩ ⟨10, 8⟩ ⟨0, 0, 0⟩
        .poison ∈
      addPlayerMoves 8 ⟨0, 0, ⟨50, 500⟩, ⟨10, 8⟩, ⟨0, 0, 0⟩⟩ [] ⟨50, 500⟩ ⟨10, 8⟩
        ⟨0, 0, 0⟩ :=
  ⟨(C5_amended 8 ⟨0, 0, ⟨50, 40⟩, ⟨10, 8⟩, ⟨0, 0, 0⟩⟩ [] ⟨50, 40⟩ ⟨10, 8⟩
      ⟨0, 0, 0⟩).1 (by decide),
   (C5_amended 8 ⟨0, 0, ⟨50, 500⟩, ⟨10, 8⟩, ⟨0, 0, 0⟩⟩ [] ⟨50, 500⟩ ⟨10, 8⟩
      ⟨0, 0, 0⟩).2.1 .poison (by decide) (by decide)⟩

/-- C6: while the shield effect is active in any state the search reaches
from a shield-free start, the boss snapshot carries effective damage equal
to its raw base damage minus 7, floored so it is at least 1 — hence the
player always takes at least 1 damage per boss attack, which subtracts
exactly the current effective damage. -/
theorem C6_shield_damage (raw : Int) (hard : Bool) (init m : Move)
    (h0 : init.effects.shield = 0) (hr : Reach raw hard init m)
    (hact : m.effects.shield ≠ 0) :
    m.boss.damage = max (raw - 7) 1 ∧ (1 : Int) ≤ m.boss.damage ∧
    (∀ (p : Player) (b : Boss) (e : Effects),
      (bossChild m p b e).player.hitPts = p.hitPts - b.damage) := by
  have hd := shield_damage_invariant h0 hr hact
  refine ⟨hd, ?_, fun p b e => rfl⟩
  rw [hd]
  omega

/-- Witness for C6: casting shield on turn 0 against an 8-damage boss
leaves the boss snapshot dealing max (8 - 7) 1 = 1 damage. -/
theorem C6_witness :
    (playerChild 8 ⟨0, 0, ⟨50, 500⟩, ⟨13, 8⟩, ⟨0, 0, 0⟩⟩
        (applySpells 8 false ⟨0, 0, ⟨50, 500⟩, ⟨13, 8⟩, ⟨0, 0, 0⟩⟩).1
        (applySpells 8 false ⟨0, 0, ⟨50, 500⟩, ⟨13, 8⟩, ⟨0, 0, 0⟩⟩).2.1
        (applySpells 8 false ⟨0, 0, ⟨50, 500⟩, ⟨13, 8⟩, ⟨0, 0, 0⟩⟩).2.2
        .shield).boss.damage = max ((8 : Int) - 7) 1 ∧
    (1 : Int) ≤ (playerChild 8 ⟨0, 0, ⟨50, 500⟩, ⟨13, 8⟩, ⟨0, 0, 0⟩⟩
        (applySpells 8 false ⟨0, 0, ⟨50, 500⟩, ⟨13, 8⟩, ⟨0, 0, 0⟩⟩).1
        (applySpells 8 false ⟨0, 0, ⟨50, 500⟩, ⟨13, 8⟩, ⟨0, 0, 0⟩⟩).2.1
        (applySpells 8 false ⟨0, 0, ⟨50, 500⟩, ⟨13, 8⟩, ⟨0, 0, 0⟩⟩).2.2
        .shield).boss.damage := by
  have h := C6_shield_damage 8 false ⟨0, 0, ⟨50, 500⟩, ⟨13, 8⟩, ⟨0, 0, 0⟩⟩ _ rfl
    (Reach.playerStep .shield (Reach.refl _) (by decide) (by decide) (by decide)
      (by decide) (by decide) (by decide)) (by decide)
  exact ⟨h.1, h.2.1⟩

/-- C7: for identical boss stats and the standard player start (50 hit
points, 500 mana), the minimum winning mana computed in hard mode is at
least the one computed in normal mode. -/
theorem C7_hard_ge_normal (boss : Boss) (fuelN fuelH rN rH : Nat)
    (hN : getMinMana ⟨50, 500⟩ boss false fuelN = some rN)
    (hH : getMinMana ⟨50, 500⟩ boss true fuelH = some rH) :
    rN ≤ rH := by
  obtain ⟨memN, lbN⟩ := getMinMana_isLeast hN
  obtain ⟨memH, lbH⟩ := getMinMana_isLeast hH
  rcases memH with h | h
  · exact lbN (Set.mem_union_left _ (winsFrom_hard_subset _ _ h))
  · exact lbN (Set.mem_union_right _ h)

/-- Witness for C7: boss with 1 hit point and 100 damage; both modes
return 53. -/
theorem C7_witness :
    getMinMana ⟨50, 500⟩ ⟨1, 100⟩ false 5 = some 53 ∧
    getMinMana ⟨50, 500⟩ ⟨1, 100⟩ true 5 = some 53 ∧
    (53 : Nat) ≤ 53 :=
  ⟨by decide, by decide,
   C7_hard_ge_normal ⟨1, 100⟩ 5 5 53 53 (by decide) (by decide)⟩

/-- No play sequence beats a boss with 30 hit points and 1000 damage when
the player has only 53 mana: the only affordable spell is magic missile,
and the boss attack on turn 1 kills the player outright. -/
theorem nowin_boss_1000 :
    winsFrom (1000 : Int) false ⟨0, 0, ⟨50, 53⟩, ⟨30, 1000⟩, ⟨0, 0, 0⟩⟩ = ∅ := by
  ext c
  simp only [Set.mem_empty_iff_false, iff_false]
  rintro ⟨s, hs⟩
  match s with
  | [] =>
      rw [playOut_playerNil (by decide) (by decide) (by decide) (by decide)
        (by decide)] at hs
      exact absurd hs (by simp)
  | a :: rest =>
      rw [playOut_playerCons (by decide) (by decide) (by decide) (by decide)
        (by decide)] at hs
      cases a with
      | missile =>
          rw [if_pos (by decide)] at hs
          rw [playOut_bossTurn (by decide) (by decide) (by decide) (by decide)
            (by decide)] at hs
          rw [playOut_dead (by decide)] at hs
          exact absurd hs (by simp)
      | drain =>
          rw [if_neg (by decide)] at hs
          exact absurd hs (by simp)
      | shield =>
          rw [if_neg (by decide)] at hs
          exact absurd hs (by simp)
      | poison =>
          rw [if_neg (by decide)] at hs
          exact absurd hs (by simp)
      | recharge =>
          rw [if_neg (by decide)] at hs
          exact absurd hs (by simp)

/-- C10: when no legal play sequence wins, `_get_min_mana` — whenever its
loop terminates with the frontier exhausted — returns the untouched
`sys.maxsize` sentinel, which equals 2 to the 63rd minus 1, as the
"minimum mana" without any error. -/
theorem C10_no_win_returns_maxsize (player : Player) (boss : Boss)
    (hard : Bool) (fuel r : Nat)
    (hrun : getMinMana player boss hard fuel = some r)
    (hnowin : winsFrom boss.damage hard ⟨0, 0, player, boss, ⟨0, 0, 0⟩⟩ = ∅) :
    r = maxsize ∧ maxsize = 2 ^ 63 - 1 := by
  obtain ⟨hmem, _⟩ := getMinMana_isLeast hrun
  rw [hnowin] at hmem
  rcases hmem with h | h
  · exact absurd h (Set.not_mem_empty r)
  · exact ⟨h, rfl⟩

/-- Witness for C10: the unbeatable 30-hit-point, 1000-damage boss
against a 53-mana player: the search terminates (with fuel 6) and reports
the sentinel. -/
theorem C10_witness :
    getMinMana ⟨50, 53⟩ ⟨30, 1000⟩ false 6 = some maxsize ∧
    winsFrom (1000 : Int) false ⟨0, 0, ⟨50, 53⟩, ⟨30, 1000⟩, ⟨0, 0, 0⟩⟩ = ∅ ∧
    maxsize = 2 ^ 63 - 1 :=
  ⟨by decide, nowin_boss_1000,
   (C10_no_win_returns_maxsize ⟨50, 53⟩ ⟨30, 1000⟩ false 6 maxsize (by decide)
     nowin_boss_1000).2⟩

/-- C3: `get_solver` maps every integer day in [1, 25] to the day-th
entry of the `aoc_solvers` tuple constructed with the given file name,
and raises `ValueError` for every integer day outside [1, 25]. -/
theorem C3_factory (day : Int) (fileName : Option String) :
    (1 ≤ day → day ≤ 25 →
      getSolver day fileName =
        Except.ok ⟨aocSolvers.getD ((day - 1).toNat) .d01, fileName⟩) ∧
    (day < 1 ∨ 25 < day →
      getSolver day fileName =
        Except.error ("No solver exists for puzzle " ++ toString day)) ∧
    aocSolvers.length = 25 := by
  refine ⟨?_, ?_, by decide⟩
  · intro h1 h2
    unfold getSolver
    rw [dif_pos ⟨by omega, h2⟩]
    have hlt : (day - 1).toNat < aocSolvers.length := by
      simp only [aocSolvers, List.length]
      omega
    rw [List.getD_eq_getElem _ _ hlt]
    rfl
  · intro h
    unfold getSolver
    rw [dif_neg ?_]
    rintro ⟨ha, hb⟩
    omega

/-- Witness for C3: day 22 resolves to the day_22 module, days 0 and 26
raise `ValueError`. -/
theorem C3_witness :
    getSolver 22 none = Except.ok ⟨DayModule.d22, none⟩ ∧
    getSolver 0 none = Except.error "No solver exists for puzzle 0" ∧
    getSolver 26 none = Except.error "No solver exists for puzzle 26" := by
  refine ⟨?_, ?_, ?_⟩
  · rw [(C3_factory 22 none).1 (by decide) (by decide)]
    rfl
  · rw [(C3_factory 0 none).2.1 (Or.inl (by decide))]
    exact congrArg Except.error (by decide)
  · rw [(C3_factory 26 none).2.1 (Or.inr (by decide))]
    exact congrArg Except.error (by decide)

/-- The Day 22 output is a function of the injected input and the search
fuel alone: the instance fields it reads (`_puzzle_input`,
`_boss_raw_damage`) are freshly written before use on every call. -/
theorem getPuzzleSolution_fst_congr (st st2 : Day22State) (input : String)
    (fuel : Nat) :
    (getPuzzleSolution st input fuel).1 = (getPuzzleSolution st2 input fuel).1 := by
  unfold getPuzzleSolution solvePuzzleParts getBoss
  dsimp only
  cases digitRuns input.trim with
  | nil => rfl
  | cons hp tl =>
      cases tl with
      | nil => rfl
      | cons dmg rest =>
          dsimp only
          cases getMinMana ⟨50, 500⟩ ⟨(hp : Int), (dmg : Int)⟩ true fuel <;>
            cases getMinMana ⟨50, 500⟩ ⟨(hp : Int), (dmg : Int)⟩ false fuel <;> rfl

/-- C8: calling `get_puzzle_solution` twice on the same Day 22 solver
object with the same injected input yields the same output both times —
the state the first call leaves behind does not change the second
result. -/
theorem C8_idempotent (st : Day22State) (input : String) (fuel : Nat) :
    (getPuzzleSolution (getPuzzleSolution st input fuel).2 input fuel).1 =
      (getPuzzleSolution st input fuel).1 :=
  getPuzzleSolution_fst_congr _ _ input fuel

/-- C9: when the puzzle input file cannot be read, `_load_puzzle_file`
does not raise to its caller: it reaches `sys.exit` with a two-line
diagnostic — the context line naming the file, then the I/O error text —
and a non-zero (1) process exit status. -/
theorem C9_load_failure (fileName err : String) :
    loadPuzzleFile fileName (Except.error err) =
      LoadOutcome.fatalExit [loadErrorContext fileName, err] 1 ∧
    [loadErrorContext fileName, err].length = 2 ∧
    (1 : Nat) ≠ 0 := by
  exact ⟨rfl, rfl, by decide⟩

end AoC2015
